import Mathlib

/-!
Verification of the `by-key` header-only C++20 library
(`include/by-key/by_key.hpp`) against its natural-language specification.

The library builds keyed associative summaries (counts, indexes, reductions,
extrema, partitions) from a single pass over a finite input sequence.  We give
a shallow embedding:

* an input range is a `List E`;
* `std::unordered_map<K, A>` is modelled as an association list
  `List (K × A)` with pairwise-distinct keys, observed through `lookupKey`;
  hash-bucket order is unobservable in the claims, so the list order only
  records first-insertion order;
* the shared accumulation pattern (projection → locate-or-create bucket →
  combine) is `updateAssoc`, and every operation's loop is a `List.foldl`
  of an `updateAssoc` step, exactly as each C++ loop body is one
  `operator[]` / `try_emplace` access followed by one combine;
* machine `std::size_t` counters are `Nat`, numeric accumulation uses `Int`.

Definitions keep the source's names (`count_by`, `index_by_into`,
`transform_reduce_by`, `extrema_by`, `partition_by`, `top_k_by_value`, ...).
-/

namespace ByKey

variable {E K V A O : Type}

/-- Lookup in the association-list model of `std::unordered_map`:
the value stored at key `k`, if any. -/
def lookupKey [DecidableEq K] : List (K × A) → K → Option A
  | [], _ => none
  | (k', a) :: rest, k => if k' = k then some a else lookupKey rest k

/-- The shared locate-or-create bucket update of the accumulation engine:
find the bucket for `k` and replace its contents by `f (some old)`, or create
a fresh bucket holding `f none`.  Each C++ loop body
(`++freq[key]`, `m[key] = v`, `m.emplace(key, v)`,
`try_emplace(key, identity)` + `combine`) is one such update. -/
def updateAssoc [DecidableEq K] : List (K × A) → K → (Option A → A) → List (K × A)
  | [], k, f => [(k, f none)]
  | (k', a) :: rest, k, f =>
    if k' = k then (k', f (some a)) :: rest else (k', a) :: updateAssoc rest k f

/-- The keys currently present in a map. -/
def keysOf (m : List (K × A)) : List K := m.map Prod.fst

/-- Model of `count_by(r, key)` from `by_key.hpp`: one pass, `++freq[key_proj(x)]`
per element (`operator[]` default-constructs the counter at `0`, then `++`). -/
def count_by [DecidableEq K] (r : List E) (key : E → K) : List (K × Nat) :=
  r.foldl (fun freq x => updateAssoc freq (key x) (fun o => o.getD 0 + 1)) []

/-- Model of `m[key_value] = std::move(val_value)` in `index_by_into` with
`overwrite == true`: insert-or-assign at a key. -/
def setAssoc [DecidableEq K] (m : List (K × V)) (k : K) (v : V) : List (K × V) :=
  updateAssoc m k (fun _ => v)

/-- Model of `m.emplace(key_value, val_value)` in `index_by_into` with
`overwrite == false`: insert only when the key is absent, keep the stored
value otherwise. -/
def emplaceAssoc [DecidableEq K] (m : List (K × V)) (k : K) (v : V) : List (K × V) :=
  updateAssoc m k (fun o => o.getD v)

/-- Model of `index_by_into(r, key, val, m, overwrite)` from `by_key.hpp`: one pass,
per element compute the key then the value and either assign (`m[k] = v`)
or emplace (`m.emplace(k, v)`) depending on the `overwrite` flag. -/
def index_by_into [DecidableEq K] (r : List E) (key : E → K) (val : E → V)
    (m : List (K × V)) (overwrite : Bool) : List (K × V) :=
  r.foldl (fun m x =>
    if overwrite then setAssoc m (key x) (val x) else emplaceAssoc m (key x) (val x)) m

/-- Model of `index_by(r, key, val, overwrite)`: `index_by_into` on an empty map. -/
def index_by [DecidableEq K] (r : List E) (key : E → K) (val : E → V)
    (overwrite : Bool) : List (K × V) :=
  index_by_into r key val [] overwrite

/-- The call `index_by(r, key, val)` with the flag omitted: the C++ signature
declares `bool overwrite = true`, so the omitted-flag call forwards `true`. -/
def index_by_default [DecidableEq K] (r : List E) (key : E → K) (val : E → V) :
    List (K × V) :=
  index_by r key val true

/-- Model of `bykey::partition_result`: the two output sequences of a partition,
`falses` then `trues` as in the source struct. -/
structure partition_result (V : Type) where
  falses : List V
  trues : List V
deriving DecidableEq

/-- Model of `partition_by(r, pred, value)` from `by_key.hpp`: one pass, per element
first evaluate the predicate, then the value projection, and push the value
onto the `trues` or `falses` sequence accordingly. -/
def partition_by (r : List E) (pred : E → Bool) (value : E → V) : partition_result V :=
  r.foldl (fun out x =>
    if pred x then { out with trues := out.trues ++ [value x] }
    else { out with falses := out.falses ++ [value x] })
    { falses := [], trues := [] }

/-- Routing the two branch sequences back by the original per-element
predicate outcomes: taking the next `trues` element where the flag is `true`
and the next `falses` element where it is `false`. -/
def interleave : List Bool → List V → List V → List V
  | [], _, _ => []
  | true :: bs, t :: ts, fs => t :: interleave bs ts fs
  | true :: _, [], _ => []
  | false :: bs, ts, f :: fs => f :: interleave bs ts fs
  | false :: _, _, [] => []

/-- A reduction traits object with `identity()` and `combine(acc, v)` and no
`finalize` member: the shape consumed by the no-`finalize` branch of
`detail::transform_reduce_by_impl`.  C++ `combine` mutates `acc` in place;
here it returns the updated accumulator. -/
structure Traits (V A : Type) where
  identity : A
  combine : A → V → A

/-- Model of `detail::basic_transform_traits`: wraps a plain (initial value, binary
operator) pair as a traits object whose `combine` performs
`acc = combine_op(acc, v)`. -/
def basic_transform_traits (init : A) (combine_op : A → V → A) : Traits V A :=
  { identity := init, combine := fun acc v => combine_op acc v }

/-- The loop of `detail::transform_reduce_by_impl` (no-`finalize` branch):
per element compute the key and the value, `try_emplace` the bucket with
`traits.identity()`, and `traits.combine` the value into it. -/
def transform_reduce_by_impl [DecidableEq K] (r : List E) (key : E → K)
    (value : E → V) (traits : Traits V A) : List (K × A) :=
  r.foldl (fun accs x =>
    updateAssoc accs (key x) (fun o => traits.combine (o.getD traits.identity) (value x))) []

/-- The traits overload of `transform_reduce_by`: forwards to the impl. -/
def transform_reduce_by [DecidableEq K] (r : List E) (key : E → K)
    (value : E → V) (traits : Traits V A) : List (K × A) :=
  transform_reduce_by_impl r key value traits

/-- The (initial value, binary operator) overload of `transform_reduce_by`:
wraps the pair in `basic_transform_traits` and forwards to the impl. -/
def transform_reduce_by_pair [DecidableEq K] (r : List E) (key : E → K)
    (value : E → V) (init : A) (combine : A → V → A) : List (K × A) :=
  transform_reduce_by_impl r key value (basic_transform_traits init combine)

/-- Model of `detail::sum_traits<T>`: identity `T{}` (the numeric zero value), combine
`acc += v`. -/
def sum_traits (V : Type) [Zero V] [Add V] : Traits V V :=
  { identity := 0, combine := fun acc v => acc + v }

/-- Model of `accumulate_by(r, key, value)` without an explicit initial value:
`transform_reduce_by` with `detail::sum_traits` over the projected value
type. -/
def accumulate_by [DecidableEq K] [Zero V] [Add V] (r : List E) (key : E → K)
    (value : E → V) : List (K × V) :=
  transform_reduce_by r key value (sum_traits V)

/-- One observable callback invocation inside an accumulation loop body: a
key-projection, value-projection, order-projection or predicate call, or
the bucket write (the one combine) for a given element. -/
inductive ProjEvent (E : Type) where
  | keyEval : E → ProjEvent E
  | valEval : E → ProjEvent E
  | ordEval : E → ProjEvent E
  | predEval : E → ProjEvent E
  | combineEv : E → ProjEvent E
deriving DecidableEq

/-- The `index_by_into` loop instrumented with an invocation log: the body
runs the key projection, then the value projection, then exactly one bucket
write, appending the three events for the current element to the log.  The
map component is computed exactly as in `index_by_into`. -/
def index_by_into_logged [DecidableEq K] (r : List E) (key : E → K) (val : E → V)
    (m : List (K × V)) (overwrite : Bool) : List (K × V) × List (ProjEvent E) :=
  r.foldl (fun acc x =>
    ((if overwrite then setAssoc acc.1 (key x) (val x)
      else emplaceAssoc acc.1 (key x) (val x)),
     acc.2 ++ [ProjEvent.keyEval x, ProjEvent.valEval x, ProjEvent.combineEv x]))
    (m, [])

/-- Model of `partition_by` where the value projection may consume or mutate the
element it is handed (modelling the C++ test in which the projection
`std::move`s out of the element): it returns the projected value together
with the residual element state.  The loop mirrors the source statement
order — `bool is_true = pred_proj(x);` on the untouched element first, then
`auto val_value = value_proj(x);` — and the residual state is never read
again. -/
def partition_by_mut (r : List E) (pred : E → Bool) (value : E → V × E) :
    partition_result V :=
  r.foldl (fun out x =>
    let is_true := pred x
    let moved := value x
    if is_true then { out with trues := out.trues ++ [moved.1] }
    else { out with falses := out.falses ++ [moved.1] })
    { falses := [], trues := [] }

/-- Model of `to_sorted_pairs(m, cmp)`: copy the map's pairs out and sort them with
the caller's strict comparator.  `std::ranges::sort` is modelled by
`mergeSort` under the complement ordering `le a b := !cmp b a`, i.e. the
output is a permutation with no `cmp`-inversions. -/
def to_sorted_pairs (m : List (K × V)) (cmp : K × V → K × V → Bool) :
    List (K × V) :=
  m.mergeSort (fun a b => !cmp b a)

/-- Model of `top_k(m, k, cmp)`: full sort, then truncate (`v.resize(k)`) when more
than `k` entries remain. -/
def top_k (m : List (K × V)) (k : Nat) (cmp : K × V → K × V → Bool) :
    List (K × V) :=
  let v := to_sorted_pairs m cmp
  if v.length > k then v.take k else v

/-- The comparator of `top_k_by_value`: value descending with ascending-key
tie-break. -/
def cmpByValue [LinearOrder K] [LinearOrder V] (a b : K × V) : Bool :=
  if a.2 ≠ b.2 then decide (b.2 < a.2) else decide (a.1 < b.1)

/-- Model of `top_k_by_value(m, k)`: `top_k` under the by-value-descending,
ascending-key-tie-break comparator. -/
def top_k_by_value [LinearOrder K] [LinearOrder V] (m : List (K × V)) (k : Nat) :
    List (K × V) :=
  top_k m k cmpByValue

/-- Model of `bykey::extrema_result`: the per-key stored values for the minimal and
maximal order key. -/
structure extrema_result (V : Type) where
  min : V
  max : V
deriving DecidableEq

/-- Model of `detail::extrema_state`: the per-key tracked (value, order) pair for
each extreme. -/
structure extrema_state (V O : Type) where
  min_value : V
  min_order : O
  max_value : V
  max_order : O
deriving DecidableEq

/-- The `try_emplace` seed of `extrema_by`: the first element seen for a key
stores its value and order as both extremes. -/
def extInit (p : V × O) : extrema_state V O :=
  { min_value := p.1, min_order := p.2, max_value := p.1, max_order := p.2 }

/-- The `extrema_by` update when the key was already present: each extreme
is replaced only on strict improvement under the comparator (`comp` is the
C++ `Compare`), so an exact tie keeps the stored value. -/
def extStep (comp : O → O → Bool) (st : extrema_state V O) (p : V × O) :
    extrema_state V O :=
  { min_value := if comp p.2 st.min_order then p.1 else st.min_value
    min_order := if comp p.2 st.min_order then p.2 else st.min_order
    max_value := if comp st.max_order p.2 then p.1 else st.max_value
    max_order := if comp st.max_order p.2 then p.2 else st.max_order }

/-- The per-key loop of `extrema_by`, started from the seeded state. -/
def extRun (comp : O → O → Bool) (st : extrema_state V O) (l : List (V × O)) :
    extrema_state V O :=
  l.foldl (extStep comp) st

/-- The output pass of `extrema_by`:
`extrema_result<V>{st.min_value, st.max_value}`. -/
def extResultOf (st : extrema_state V O) : extrema_result V :=
  { min := st.min_value, max := st.max_value }

/-- The per-element bucket update of `extrema_by`: `try_emplace` seeds the
state from the element on first sight of the key, otherwise the
strict-improvement update runs. -/
def extUpdate (comp : O → O → Bool) (v : V) (o : O) :
    Option (extrema_state V O) → extrema_state V O
  | none => extInit (v, o)
  | some st => extStep comp st (v, o)

/-- Model of `extrema_by(r, key, value, order, comp)` from `by_key.hpp`: one pass
seeding/updating a per-key `extrema_state`, then a projection pass building
the `extrema_result` map from the stored min/max values. -/
def extrema_by [DecidableEq K] (r : List E) (key : E → K) (value : E → V)
    (order : E → O) (comp : O → O → Bool) : List (K × extrema_result V) :=
  (r.foldl (fun states x =>
      updateAssoc states (key x) (extUpdate comp (value x) (order x))) []).map
    (fun kv => (kv.1, extResultOf kv.2))

/-- Model of `minmax_by`: alias forwarding to `extrema_by`. -/
def minmax_by [DecidableEq K] (r : List E) (key : E → K) (value : E → V)
    (order : E → O) (comp : O → O → Bool) : List (K × extrema_result V) :=
  extrema_by r key value order comp

/-- The invariant tying an extrema state to the per-key elements seen so
far: the stored min order is a lower bound of all seen orders and the stored
(min value, min order) pair is the first seen pair attaining it, and dually
for the max. -/
def MinMaxInv [LinearOrder O] (seen : List (V × O)) (st : extrema_state V O) : Prop :=
  (∀ p ∈ seen, st.min_order ≤ p.2)
  ∧ seen.find? (fun q => decide (q.2 ≤ st.min_order)) = some (st.min_value, st.min_order)
  ∧ (∀ p ∈ seen, p.2 ≤ st.max_order)
  ∧ seen.find? (fun q => decide (st.max_order ≤ q.2)) = some (st.max_value, st.max_order)

/-- Model of `group_reduce_by(r, key, value, init, op)` from `by_key.hpp`:
one pass, per element compute the key then the value, `try_emplace` the
bucket with the initial accumulator `init`, and fold the value in with the
caller's reducer `op_fn(it->second, value)`. -/
def group_reduce_by [DecidableEq K] (r : List E) (key : E → K) (value : E → V)
    (init : A) (op : A → V → A) : List (K × A) :=
  r.foldl (fun m x => updateAssoc m (key x) (fun o => op (o.getD init) (value x))) []

/-- Model of `group_by_into(r, key, value, m)` from `by_key.hpp`: one pass,
per element compute the key then the value and
`m[key_value].push_back(std::move(val_value))` (`operator[]`
default-constructs an empty bucket on first sight of a key). -/
def group_by_into [DecidableEq K] (r : List E) (key : E → K) (value : E → V)
    (m : List (K × List V)) : List (K × List V) :=
  r.foldl (fun m x => updateAssoc m (key x) (fun o => o.getD [] ++ [value x])) m

/-- Model of `group_by(r, key, value)`: `group_by_into` on an empty map. -/
def group_by [DecidableEq K] (r : List E) (key : E → K) (value : E → V) :
    List (K × List V) :=
  group_by_into r key value []

/-- The `count_by` loop instrumented with an invocation log: per element one
key-projection call followed by one bucket increment (the combine). -/
def count_by_logged [DecidableEq K] (r : List E) (key : E → K) :
    List (K × Nat) × List (ProjEvent E) :=
  r.foldl (fun acc x =>
    (updateAssoc acc.1 (key x) (fun o => o.getD 0 + 1),
     acc.2 ++ [ProjEvent.keyEval x, ProjEvent.combineEv x])) ([], [])

/-- The `group_reduce_by` loop instrumented with an invocation log: per
element one key-projection call, one value-projection call, one combine. -/
def group_reduce_by_logged [DecidableEq K] (r : List E) (key : E → K)
    (value : E → V) (init : A) (op : A → V → A) :
    List (K × A) × List (ProjEvent E) :=
  r.foldl (fun acc x =>
    (updateAssoc acc.1 (key x) (fun o => op (o.getD init) (value x)),
     acc.2 ++ [ProjEvent.keyEval x, ProjEvent.valEval x, ProjEvent.combineEv x]))
    ([], [])

/-- The `group_by_into` loop instrumented with an invocation log: per
element one key-projection call, one value-projection call, one bucket
append (the combine). -/
def group_by_into_logged [DecidableEq K] (r : List E) (key : E → K)
    (value : E → V) (m : List (K × List V)) :
    List (K × List V) × List (ProjEvent E) :=
  r.foldl (fun acc x =>
    (updateAssoc acc.1 (key x) (fun o => o.getD [] ++ [value x]),
     acc.2 ++ [ProjEvent.keyEval x, ProjEvent.valEval x, ProjEvent.combineEv x]))
    (m, [])

/-- The `detail::transform_reduce_by_impl` loop instrumented with an
invocation log: per element one key-projection call, one value-projection
call, one `traits.combine`. -/
def transform_reduce_by_impl_logged [DecidableEq K] (r : List E) (key : E → K)
    (value : E → V) (traits : Traits V A) : List (K × A) × List (ProjEvent E) :=
  r.foldl (fun acc x =>
    (updateAssoc acc.1 (key x) (fun o => traits.combine (o.getD traits.identity) (value x)),
     acc.2 ++ [ProjEvent.keyEval x, ProjEvent.valEval x, ProjEvent.combineEv x]))
    ([], [])

/-- The `extrema_by` loop instrumented with an invocation log: per element
one key-projection call, one order-projection call, one value-projection
call (the source's evaluation order), one state combine. -/
def extrema_by_logged [DecidableEq K] (r : List E) (key : E → K) (value : E → V)
    (order : E → O) (comp : O → O → Bool) :
    List (K × extrema_result V) × List (ProjEvent E) :=
  let s := r.foldl (fun acc x =>
    (updateAssoc acc.1 (key x) (extUpdate comp (value x) (order x)),
     acc.2 ++ [ProjEvent.keyEval x, ProjEvent.ordEval x, ProjEvent.valEval x,
       ProjEvent.combineEv x])) ([], [])
  (s.1.map (fun kv => (kv.1, extResultOf kv.2)), s.2)

/-- The `partition_by` loop instrumented with an invocation log: per element
one predicate call, one value-projection call, one branch append (the
combine). -/
def partition_by_logged (r : List E) (pred : E → Bool) (value : E → V) :
    partition_result V × List (ProjEvent E) :=
  r.foldl (fun acc x =>
    ((if pred x then { acc.1 with trues := acc.1.trues ++ [value x] }
      else { acc.1 with falses := acc.1.falses ++ [value x] }),
     acc.2 ++ [ProjEvent.predEval x, ProjEvent.valEval x, ProjEvent.combineEv x]))
    ({ falses := [], trues := [] }, [])

/-- The shared exception-semantics loop of every accumulation operation: run
the fallible per-iteration body over the elements in order; the first
signalled error (a C++ exception is modelled as `Except.error`) aborts the
loop at once and becomes the result of the whole call, the locally built
state being discarded — it never appears in the error result. -/
def foldE {ε S : Type} (f : S → E → Except ε S) : S → List E → Except ε S
  | s, [] => Except.ok s
  | s, x :: rest =>
    match f s x with
    | Except.error e => Except.error e
    | Except.ok s2 => foldE f s2 rest

/-- The `count_by` loop body with a fallible key projection:
`++freq[key_proj(x)]` after the key evaluates, else the error. -/
def count_step_exc {ε : Type} [DecidableEq K] (key : E → Except ε K)
    (m : List (K × Nat)) (x : E) : Except ε (List (K × Nat)) :=
  match key x with
  | Except.error e => Except.error e
  | Except.ok key_value => Except.ok (updateAssoc m key_value (fun o => o.getD 0 + 1))

/-- Fallible-projection `count_by`: the loop over an empty map. -/
def count_by_exc {ε : Type} [DecidableEq K] (r : List E) (key : E → Except ε K) :
    Except ε (List (K × Nat)) :=
  foldE (count_step_exc key) [] r

/-- The `index_by_into` loop body with fallible projections: the key
evaluates first, then the value, then the assign/emplace bucket write. -/
def index_step_exc {ε : Type} [DecidableEq K] (key : E → Except ε K)
    (val : E → Except ε V) (overwrite : Bool) (m : List (K × V)) (x : E) :
    Except ε (List (K × V)) :=
  match key x with
  | Except.error e => Except.error e
  | Except.ok key_value =>
    match val x with
    | Except.error e => Except.error e
    | Except.ok val_value =>
      Except.ok (if overwrite then setAssoc m key_value val_value
        else emplaceAssoc m key_value val_value)

/-- Fallible-projection `index_by_into`. -/
def index_by_into_exc {ε : Type} [DecidableEq K] (r : List E) (key : E → Except ε K)
    (val : E → Except ε V) (m : List (K × V)) (overwrite : Bool) :
    Except ε (List (K × V)) :=
  foldE (index_step_exc key val overwrite) m r

/-- The `group_reduce_by` loop body with fallible projections: key first,
then value, then `try_emplace` + reducer. -/
def group_reduce_step_exc {ε : Type} [DecidableEq K] (key : E → Except ε K)
    (value : E → Except ε V) (init : A) (op : A → V → A) (m : List (K × A))
    (x : E) : Except ε (List (K × A)) :=
  match key x with
  | Except.error e => Except.error e
  | Except.ok key_value =>
    match value x with
    | Except.error e => Except.error e
    | Except.ok value_copy =>
      Except.ok (updateAssoc m key_value (fun o => op (o.getD init) value_copy))

/-- Fallible-projection `group_reduce_by`. -/
def group_reduce_by_exc {ε : Type} [DecidableEq K] (r : List E)
    (key : E → Except ε K) (value : E → Except ε V) (init : A) (op : A → V → A) :
    Except ε (List (K × A)) :=
  foldE (group_reduce_step_exc key value init op) [] r

/-- The `group_by_into` loop body with fallible projections: key first, then
value, then the bucket append. -/
def group_step_exc {ε : Type} [DecidableEq K] (key : E → Except ε K)
    (value : E → Except ε V) (m : List (K × List V)) (x : E) :
    Except ε (List (K × List V)) :=
  match key x with
  | Except.error e => Except.error e
  | Except.ok key_value =>
    match value x with
    | Except.error e => Except.error e
    | Except.ok val_value =>
      Except.ok (updateAssoc m key_value (fun o => o.getD [] ++ [val_value]))

/-- Fallible-projection `group_by_into`. -/
def group_by_into_exc {ε : Type} [DecidableEq K] (r : List E)
    (key : E → Except ε K) (value : E → Except ε V) (m : List (K × List V)) :
    Except ε (List (K × List V)) :=
  foldE (group_step_exc key value) m r

/-- The `detail::transform_reduce_by_impl` loop body with fallible
projections: key first, then value, then `try_emplace` + `combine`.  On
success the bucket update is exactly the infallible one. -/
def transform_reduce_step_exc {ε : Type} [DecidableEq K] (key : E → Except ε K)
    (value : E → Except ε V) (traits : Traits V A) (m : List (K × A)) (x : E) :
    Except ε (List (K × A)) :=
  match key x with
  | Except.error e => Except.error e
  | Except.ok key_value =>
    match value x with
    | Except.error e => Except.error e
    | Except.ok value_copy =>
      Except.ok (updateAssoc m key_value
        (fun o => traits.combine (o.getD traits.identity) value_copy))

/-- Fallible-projection `detail::transform_reduce_by_impl` (the engine of
`transform_reduce_by` and `accumulate_by`), started from an empty map. -/
def transform_reduce_by_impl_exc {ε : Type} [DecidableEq K] (r : List E)
    (key : E → Except ε K) (value : E → Except ε V) (traits : Traits V A) :
    Except ε (List (K × A)) :=
  foldE (transform_reduce_step_exc key value traits) [] r

/-- The `extrema_by` loop body with fallible projections, in the source's
evaluation order: key first, then order, then value, then the state
combine. -/
def extrema_step_exc {ε : Type} [DecidableEq K] (key : E → Except ε K)
    (value : E → Except ε V) (order : E → Except ε O) (comp : O → O → Bool)
    (m : List (K × extrema_state V O)) (x : E) :
    Except ε (List (K × extrema_state V O)) :=
  match key x with
  | Except.error e => Except.error e
  | Except.ok key_value =>
    match order x with
    | Except.error e => Except.error e
    | Except.ok order_value =>
      match value x with
      | Except.error e => Except.error e
      | Except.ok val_value =>
        Except.ok (updateAssoc m key_value (extUpdate comp val_value order_value))

/-- Fallible-projection `extrema_by`: the loop, then the infallible output
pass (which runs only when no element signalled an error). -/
def extrema_by_exc {ε : Type} [DecidableEq K] (r : List E) (key : E → Except ε K)
    (value : E → Except ε V) (order : E → Except ε O) (comp : O → O → Bool) :
    Except ε (List (K × extrema_result V)) :=
  Except.map (fun states => states.map (fun kv => (kv.1, extResultOf kv.2)))
    (foldE (extrema_step_exc key value order comp) [] r)

/-- The `partition_by` loop body with a fallible predicate and value
projection: the predicate evaluates first, then the value, then the branch
append. -/
def partition_step_exc {ε : Type} (pred : E → Except ε Bool)
    (value : E → Except ε V) (out : partition_result V) (x : E) :
    Except ε (partition_result V) :=
  match pred x with
  | Except.error e => Except.error e
  | Except.ok is_true =>
    match value x with
    | Except.error e => Except.error e
    | Except.ok val_value =>
      Except.ok (if is_true then { out with trues := out.trues ++ [val_value] }
        else { out with falses := out.falses ++ [val_value] })

/-- Fallible-projection `partition_by`. -/
def partition_by_exc {ε : Type} (r : List E) (pred : E → Except ε Bool)
    (value : E → Except ε V) : Except ε (partition_result V) :=
  foldE (partition_step_exc pred value) { falses := [], trues := [] } r

theorem lookupKey_updateAssoc [DecidableEq K] (m : List (K × A)) (k k' : K)
    (f : Option A → A) :
    lookupKey (updateAssoc m k f) k'
      = if k = k' then some (f (lookupKey m k)) else lookupKey m k' := by
  induction m with
  | nil =>
    by_cases h : k = k' <;> simp [updateAssoc, lookupKey, h]
  | cons p rest ih =>
    obtain ⟨k0, a⟩ := p
    by_cases h0 : k0 = k
    · subst h0
      by_cases h1 : k0 = k'
      · subst h1; simp [updateAssoc, lookupKey]
      · simp [updateAssoc, lookupKey, h1]
    · by_cases h1 : k0 = k'
      · subst h1
        have hkk : ¬ k = k0 := fun h => h0 h.symm
        simp [updateAssoc, lookupKey, h0, hkk]
      · simp [updateAssoc, lookupKey, h0, h1, ih]

theorem mem_keysOf_updateAssoc [DecidableEq K] (m : List (K × A)) (k k' : K)
    (f : Option A → A) :
    k' ∈ keysOf (updateAssoc m k f) ↔ k' ∈ keysOf m ∨ k' = k := by
  induction m with
  | nil => simp [updateAssoc, keysOf]
  | cons p rest ih =>
    obtain ⟨k0, a⟩ := p
    by_cases h0 : k0 = k <;> simp [updateAssoc, keysOf, h0] at ih ⊢ <;> tauto

theorem nodup_keysOf_updateAssoc [DecidableEq K] (m : List (K × A)) (k : K)
    (f : Option A → A) (h : (keysOf m).Nodup) :
    (keysOf (updateAssoc m k f)).Nodup := by
  induction m with
  | nil => simp [updateAssoc, keysOf]
  | cons p rest ih =>
    obtain ⟨k0, a⟩ := p
    simp only [keysOf, List.map_cons, List.nodup_cons] at h
    by_cases h0 : k0 = k
    · simpa [updateAssoc, keysOf, h0] using h
    · have hrest := ih h.2
      have hmem : k0 ∉ keysOf (updateAssoc rest k f) := by
        rw [mem_keysOf_updateAssoc]
        rintro (hc | hc)
        · exact h.1 (by simpa [keysOf] using hc)
        · exact h0 hc
      simpa [updateAssoc, keysOf, h0, List.nodup_cons] using ⟨by simpa [keysOf] using hmem, hrest⟩

/-- The central commutation lemma: after folding the accumulation step over
the whole input, the bucket at `k` is obtained by folding only over the
elements whose projected key is `k`, in input order. -/
theorem lookupKey_foldl_updateAssoc [DecidableEq K] (l : List E) (key : E → K)
    (step : E → Option A → A) (m0 : List (K × A)) (k : K) :
    lookupKey (l.foldl (fun m x => updateAssoc m (key x) (step x)) m0) k
      = (l.filter (fun x => decide (key x = k))).foldl
          (fun acc x => some (step x acc)) (lookupKey m0 k) := by
  induction l generalizing m0 with
  | nil => rfl
  | cons x l ih =>
    simp only [List.foldl_cons, List.filter_cons]
    by_cases h : key x = k
    · rw [ih, lookupKey_updateAssoc]
      simp [h]
    · rw [ih, lookupKey_updateAssoc]
      simp [h, fun hk : k = key x => h hk.symm]

theorem mem_keysOf_foldl_updateAssoc [DecidableEq K] (l : List E) (key : E → K)
    (step : E → Option A → A) (m0 : List (K × A)) (k : K) :
    k ∈ keysOf (l.foldl (fun m x => updateAssoc m (key x) (step x)) m0)
      ↔ k ∈ keysOf m0 ∨ k ∈ l.map key := by
  induction l generalizing m0 with
  | nil => simp
  | cons x l ih =>
    simp only [List.foldl_cons, List.map_cons, List.mem_cons]
    rw [ih, mem_keysOf_updateAssoc]
    tauto

theorem nodup_keysOf_foldl_updateAssoc [DecidableEq K] (l : List E) (key : E → K)
    (step : E → Option A → A) (m0 : List (K × A)) (h : (keysOf m0).Nodup) :
    (keysOf (l.foldl (fun m x => updateAssoc m (key x) (step x)) m0)).Nodup := by
  induction l generalizing m0 with
  | nil => exact h
  | cons x l ih => exact ih _ (nodup_keysOf_updateAssoc _ _ _ h)

theorem sum_snd_updateAssoc_count [DecidableEq K] (m : List (K × Nat)) (k : K) :
    ((updateAssoc m k (fun o => o.getD 0 + 1)).map Prod.snd).sum
      = (m.map Prod.snd).sum + 1 := by
  induction m with
  | nil => simp [updateAssoc]
  | cons p rest ih =>
    obtain ⟨k0, a⟩ := p
    by_cases h0 : k0 = k <;> simp [updateAssoc, h0, ih] <;> omega

theorem foldl_count_some (l : List E) (n : Nat) :
    l.foldl (fun (acc : Option Nat) _ => some (acc.getD 0 + 1)) (some n)
      = some (n + l.length) := by
  induction l generalizing n with
  | nil => rfl
  | cons x l ih => simpa [ih] using by omega

theorem foldl_count_none (l : List E) :
    l.foldl (fun (acc : Option Nat) _ => some (acc.getD 0 + 1)) none
      = if l.length = 0 then none else some l.length := by
  cases l with
  | nil => rfl
  | cons x l =>
    have h1 : (none : Option Nat).getD 0 + 1 = 1 := rfl
    rw [List.foldl_cons, h1, foldl_count_some l 1]
    simp [Nat.add_comm]

theorem count_by_lookup [DecidableEq K] (l : List E) (key : E → K) (k : K) :
    lookupKey (count_by l key) k
      = if l.countP (fun x => decide (key x = k)) = 0 then none
        else some (l.countP (fun x => decide (key x = k))) := by
  rw [count_by, lookupKey_foldl_updateAssoc l key (fun _ o => o.getD 0 + 1) [] k]
  rw [show lookupKey ([] : List (K × Nat)) k = none from rfl]
  rw [foldl_count_none, List.countP_eq_length_filter]

theorem count_by_sum_len [DecidableEq K] (l : List E) (key : E → K) :
    ((count_by l key).map Prod.snd).sum = l.length := by
  suffices h : ∀ m0 : List (K × Nat),
      ((l.foldl (fun freq x => updateAssoc freq (key x) (fun o => o.getD 0 + 1)) m0).map
        Prod.snd).sum = (m0.map Prod.snd).sum + l.length by
    simpa [count_by] using h []
  induction l with
  | nil => simp
  | cons x l ih =>
    intro m0
    simp [List.foldl_cons, ih, sum_snd_updateAssoc_count]
    omega

/-- C1: `count_by` returns a map with exactly one entry per distinct observed
key (its key list is duplicate-free and a key is present iff some element
projects to it), the entry at each key is the number of elements whose
projected key equals that key, and the bucket counts sum to the input
length. -/
theorem count_by_correct [DecidableEq K] (l : List E) (key : E → K) :
    (keysOf (count_by l key)).Nodup
    ∧ (∀ k, k ∈ keysOf (count_by l key) ↔ k ∈ l.map key)
    ∧ (∀ k, lookupKey (count_by l key) k
        = if l.countP (fun x => decide (key x = k)) = 0 then none
          else some (l.countP (fun x => decide (key x = k))))
    ∧ ((count_by l key).map Prod.snd).sum = l.length := by
  refine ⟨?_, ?_, count_by_lookup l key, count_by_sum_len l key⟩
  · exact nodup_keysOf_foldl_updateAssoc l key _ [] (by simp [keysOf])
  · intro k
    rw [count_by, mem_keysOf_foldl_updateAssoc]
    simp [keysOf]

theorem foldl_overwrite_last (g : E → V) (l : List E) (acc : Option V) :
    l.foldl (fun _ x => some (g x)) acc = ((l.map g).getLast?).or acc := by
  induction l generalizing acc with
  | nil => rfl
  | cons x l ih =>
    rw [List.foldl_cons, ih]
    cases l with
    | nil => rfl
    | cons y l =>
      obtain ⟨v, hv⟩ := Option.isSome_iff_exists.mp
        (List.getLast?_isSome.mpr (List.cons_ne_nil (g y) (l.map g)))
      simp [hv]

theorem foldl_keep_first_some (g : E → V) (l : List E) (v : V) :
    l.foldl (fun (acc : Option V) x => some (acc.getD (g x))) (some v) = some v := by
  induction l with
  | nil => rfl
  | cons x l ih => simpa using ih

theorem foldl_keep_first (g : E → V) (l : List E) :
    l.foldl (fun (acc : Option V) x => some (acc.getD (g x))) none
      = (l.map g).head? := by
  cases l with
  | nil => rfl
  | cons x l =>
    have h1 : (none : Option V).getD (g x) = g x := rfl
    rw [List.foldl_cons, h1, foldl_keep_first_some g l (g x)]
    rfl

/-- C4: `index_by` with `overwrite = true` maps each key to the value of the
last element having that key, with `overwrite = false` to the value of the
first such element (later values dropped), the omitted-flag form defaults to
overwrite-last, and on `[(a, 1), (a, 2)]` keyed by the first component the
two modes give `a ↦ 2` and `a ↦ 1` respectively. -/
theorem index_by_correct [DecidableEq K] (l : List E) (key : E → K) (val : E → V) :
    (∀ k, lookupKey (index_by l key val true) k
        = ((l.filter (fun x => decide (key x = k))).map val).getLast?)
    ∧ (∀ k, lookupKey (index_by l key val false) k
        = ((l.filter (fun x => decide (key x = k))).map val).head?)
    ∧ index_by_default l key val = index_by l key val true
    ∧ lookupKey (index_by [(0, 1), (0, 2)] Prod.fst Prod.snd true) 0 = some 2
    ∧ lookupKey (index_by [(0, 1), (0, 2)] Prod.fst Prod.snd false) 0 = some 1 := by
  refine ⟨?_, ?_, rfl, by decide, by decide⟩
  · intro k
    rw [index_by, index_by_into]
    simp only [setAssoc, reduceIte]
    rw [lookupKey_foldl_updateAssoc l key (fun x _ => val x) [] k]
    rw [show lookupKey ([] : List (K × V)) k = none from rfl]
    rw [foldl_overwrite_last, Option.or_none]
  · intro k
    rw [index_by, index_by_into]
    simp only [emplaceAssoc, Bool.false_eq_true, if_false]
    rw [lookupKey_foldl_updateAssoc l key (fun x o => o.getD (val x)) [] k]
    rw [show lookupKey ([] : List (K × V)) k = none from rfl]
    rw [foldl_keep_first]

theorem partition_by_foldl (pred : E → Bool) (value : E → V) (l : List E)
    (out0 : partition_result V) :
    l.foldl (fun out x =>
        if pred x then { out with trues := out.trues ++ [value x] }
        else { out with falses := out.falses ++ [value x] }) out0
      = { falses := out0.falses ++ (l.filter (fun x => !pred x)).map value,
          trues := out0.trues ++ (l.filter pred).map value } := by
  induction l generalizing out0 with
  | nil => simp
  | cons x l ih =>
    rw [List.foldl_cons, ih]
    by_cases h : pred x = true <;> simp [h]

theorem partition_by_trues (pred : E → Bool) (value : E → V) (l : List E) :
    (partition_by l pred value).trues = (l.filter pred).map value := by
  rw [partition_by, partition_by_foldl]
  simp

theorem partition_by_falses (pred : E → Bool) (value : E → V) (l : List E) :
    (partition_by l pred value).falses = (l.filter (fun x => !pred x)).map value := by
  rw [partition_by, partition_by_foldl]
  simp

theorem interleave_filter (pred : E → Bool) (value : E → V) (l : List E) :
    interleave (l.map pred) ((l.filter pred).map value)
        ((l.filter (fun x => !pred x)).map value)
      = l.map value := by
  induction l with
  | nil => rfl
  | cons x l ih =>
    by_cases h : pred x = true <;> simp [h, interleave, ih]

/-- C2: `partition_by` splits the projected sequence without loss or
duplication: the `trues` branch holds exactly the projected values of the
elements satisfying the predicate, in input order, the `falses` branch the
rest, in input order, and interleaving the two branches back by the
per-element predicate outcomes reconstructs the projected input sequence. -/
theorem partition_by_correct (l : List E) (pred : E → Bool) (value : E → V) :
    (partition_by l pred value).trues = (l.filter pred).map value
    ∧ (partition_by l pred value).falses = (l.filter (fun x => !pred x)).map value
    ∧ interleave (l.map pred) (partition_by l pred value).trues
        (partition_by l pred value).falses = l.map value := by
  refine ⟨partition_by_trues pred value l, partition_by_falses pred value l, ?_⟩
  rw [partition_by_trues, partition_by_falses, interleave_filter]

/-- C6: calling `transform_reduce_by` with a no-`finalize` traits object whose
identity is `init` and whose combine agrees pointwise with `op` returns
exactly the same map as calling the (initial value, binary operator) overload
with `init` and `op`. -/
theorem transform_reduce_by_traits_eq_pair [DecidableEq K] (r : List E)
    (key : E → K) (value : E → V) (traits : Traits V A) (init : A)
    (op : A → V → A) (hid : traits.identity = init)
    (hcomb : ∀ a v, traits.combine a v = op a v) :
    transform_reduce_by r key value traits
      = transform_reduce_by_pair r key value init op := by
  have htr : traits = basic_transform_traits init op := by
    cases traits with
    | mk i c =>
      simp only [basic_transform_traits, Traits.mk.injEq]
      exact ⟨hid, funext fun a => funext fun v => hcomb a v⟩
  rw [transform_reduce_by, transform_reduce_by_pair, htr]

/-- Witness for C6 at a concrete input: the max-tracking traits object over
`Nat` against the equivalent plain pair, on a four-element sequence keyed by
parity. -/
theorem transform_reduce_by_traits_eq_pair_witness :
    transform_reduce_by [3, 1, 4, 2] (fun x => x % 2) (fun x => x)
        ({ identity := 0, combine := fun a v => Nat.max a v } : Traits Nat Nat)
      = transform_reduce_by_pair [3, 1, 4, 2] (fun x => x % 2) (fun x => x) 0
          (fun a v => Nat.max a v) :=
  transform_reduce_by_traits_eq_pair [3, 1, 4, 2] (fun x => x % 2) (fun x => x)
    { identity := 0, combine := fun a v => Nat.max a v } 0
    (fun a v => Nat.max a v) rfl (fun _ _ => rfl)

theorem foldl_sum_some (g : E → Int) (l : List E) (n : Int) :
    l.foldl (fun (acc : Option Int) x => some (acc.getD 0 + g x)) (some n)
      = some (n + (l.map g).sum) := by
  induction l generalizing n with
  | nil => simp
  | cons x l ih =>
    rw [List.foldl_cons]
    have h1 : (some n).getD 0 + g x = n + g x := rfl
    rw [h1, ih]
    simp [add_assoc]

/-- C5: `accumulate_by` without an explicit initial value maps each key that
occurs to the sum of the projected values of the elements having that key
(starting from the numeric zero identity), and stores nothing at keys no
element projects to. -/
theorem accumulate_by_correct [DecidableEq K] (l : List E) (key : E → K)
    (value : E → Int) (k : K) :
    (l.filter (fun x => decide (key x = k)) ≠ [] →
      lookupKey (accumulate_by l key value) k
        = some (((l.filter (fun x => decide (key x = k))).map value).sum))
    ∧ (l.filter (fun x => decide (key x = k)) = [] →
      lookupKey (accumulate_by l key value) k = none) := by
  have hbase : lookupKey (accumulate_by l key value) k
      = (l.filter (fun x => decide (key x = k))).foldl
          (fun (acc : Option Int) x => some (acc.getD 0 + value x)) none := by
    rw [accumulate_by, transform_reduce_by, transform_reduce_by_impl]
    rw [lookupKey_foldl_updateAssoc l key
      (fun x o => (sum_traits Int).combine (o.getD (sum_traits Int).identity) (value x)) [] k]
    rfl
  constructor
  · intro h
    obtain ⟨x, rest, hx⟩ := List.exists_cons_of_ne_nil h
    rw [hbase, hx, List.foldl_cons]
    have h1 : (none : Option Int).getD 0 + value x = 0 + value x := rfl
    rw [h1, foldl_sum_some]
    simp [add_assoc]
  · intro h
    rw [hbase, h]
    rfl

/-- Witness for C5 at the spec's example: scores
`[(red, 3), (blue, 2), (red, 5), (blue, 4), (red, -1)]` (teams encoded as
`0 = red`, `1 = blue`) accumulate to `red = 7` and `blue = 6`. -/
theorem accumulate_by_correct_witness :
    lookupKey (accumulate_by
        [(0, (3 : Int)), (1, 2), (0, 5), (1, 4), (0, -1)] Prod.fst Prod.snd) 0
      = some 7
    ∧ lookupKey (accumulate_by
        [(0, (3 : Int)), (1, 2), (0, 5), (1, 4), (0, -1)] Prod.fst Prod.snd) 1
      = some 6 := by
  have h0 := (accumulate_by_correct
    [((0 : Nat), (3 : Int)), (1, 2), (0, 5), (1, 4), (0, -1)] Prod.fst Prod.snd 0).1
    (by decide)
  have h1 := (accumulate_by_correct
    [((0 : Nat), (3 : Int)), (1, 2), (0, 5), (1, 4), (0, -1)] Prod.fst Prod.snd 1).1
    (by decide)
  refine ⟨?_, ?_⟩
  · rw [h0]; decide
  · rw [h1]; decide

theorem foldl_with_log {S : Type} (f : S → E → S) (ev : E → List (ProjEvent E))
    (l : List E) : ∀ (s : S) (log : List (ProjEvent E)),
    l.foldl (fun acc x => (f acc.1 x, acc.2 ++ ev x)) (s, log)
      = (l.foldl f s, log ++ l.flatMap ev) := by
  induction l with
  | nil => intro s log; simp
  | cons x l ih =>
    intro s log
    rw [List.foldl_cons, ih]
    simp

/-- C7: in every accumulation loop of the library — `count_by`,
`index_by_into`, `group_reduce_by`, `group_by_into`,
`transform_reduce_by_impl`, `extrema_by` and `partition_by` — each
projection in force (key, value, order, predicate) is invoked exactly once
per element, in strict input order and in the source's per-element
evaluation order, with exactly one bucket combine per element: every
instrumented loop logs precisely the per-element event block of each
element in sequence, with no element skipped, reordered or processed
twice, while computing the same result as the uninstrumented operation.  A
stateful projection therefore observes the elements in input order, once
each. -/
theorem accumulation_projections_once_in_order [DecidableEq K] (l : List E)
    (key : E → K) (val : E → V) (order : E → O) (pred : E → Bool) (init : A)
    (op : A → V → A) (traits : Traits V A) (m : List (K × V))
    (mg : List (K × List V)) (overwrite : Bool) (comp : O → O → Bool) :
    ((count_by_logged l key).2
        = l.flatMap (fun x => [ProjEvent.keyEval x, ProjEvent.combineEv x])
      ∧ (count_by_logged l key).1 = count_by l key)
    ∧ ((index_by_into_logged l key val m overwrite).2
        = l.flatMap (fun x =>
            [ProjEvent.keyEval x, ProjEvent.valEval x, ProjEvent.combineEv x])
      ∧ (index_by_into_logged l key val m overwrite).1
          = index_by_into l key val m overwrite)
    ∧ ((group_reduce_by_logged l key val init op).2
        = l.flatMap (fun x =>
            [ProjEvent.keyEval x, ProjEvent.valEval x, ProjEvent.combineEv x])
      ∧ (group_reduce_by_logged l key val init op).1
          = group_reduce_by l key val init op)
    ∧ ((group_by_into_logged l key val mg).2
        = l.flatMap (fun x =>
            [ProjEvent.keyEval x, ProjEvent.valEval x, ProjEvent.combineEv x])
      ∧ (group_by_into_logged l key val mg).1 = group_by_into l key val mg)
    ∧ ((transform_reduce_by_impl_logged l key val traits).2
        = l.flatMap (fun x =>
            [ProjEvent.keyEval x, ProjEvent.valEval x, ProjEvent.combineEv x])
      ∧ (transform_reduce_by_impl_logged l key val traits).1
          = transform_reduce_by_impl l key val traits)
    ∧ ((extrema_by_logged l key val order comp).2
        = l.flatMap (fun x => [ProjEvent.keyEval x, ProjEvent.ordEval x,
            ProjEvent.valEval x, ProjEvent.combineEv x])
      ∧ (extrema_by_logged l key val order comp).1
          = extrema_by l key val order comp)
    ∧ ((partition_by_logged l pred val).2
        = l.flatMap (fun x =>
            [ProjEvent.predEval x, ProjEvent.valEval x, ProjEvent.combineEv x])
      ∧ (partition_by_logged l pred val).1 = partition_by l pred val) := by
  have hc : count_by_logged l key
      = (count_by l key,
         l.flatMap (fun x => [ProjEvent.keyEval x, ProjEvent.combineEv x])) := by
    rw [count_by_logged, foldl_with_log
      (fun mm x => updateAssoc mm (key x) (fun o => o.getD 0 + 1))
      (fun x => [ProjEvent.keyEval x, ProjEvent.combineEv x]) l [] []]
    rw [count_by]
    simp
  have hi : index_by_into_logged l key val m overwrite
      = (index_by_into l key val m overwrite,
         l.flatMap (fun x =>
           [ProjEvent.keyEval x, ProjEvent.valEval x, ProjEvent.combineEv x])) := by
    rw [index_by_into_logged, foldl_with_log
      (fun mm x => if overwrite then setAssoc mm (key x) (val x)
        else emplaceAssoc mm (key x) (val x))
      (fun x => [ProjEvent.keyEval x, ProjEvent.valEval x, ProjEvent.combineEv x]) l m []]
    rw [index_by_into]
    simp
  have hg : group_reduce_by_logged l key val init op
      = (group_reduce_by l key val init op,
         l.flatMap (fun x =>
           [ProjEvent.keyEval x, ProjEvent.valEval x, ProjEvent.combineEv x])) := by
    rw [group_reduce_by_logged, foldl_with_log
      (fun mm x => updateAssoc mm (key x) (fun o => op (o.getD init) (val x)))
      (fun x => [ProjEvent.keyEval x, ProjEvent.valEval x, ProjEvent.combineEv x]) l [] []]
    rw [group_reduce_by]
    simp
  have hgi : group_by_into_logged l key val mg
      = (group_by_into l key val mg,
         l.flatMap (fun x =>
           [ProjEvent.keyEval x, ProjEvent.valEval x, ProjEvent.combineEv x])) := by
    rw [group_by_into_logged, foldl_with_log
      (fun mm x => updateAssoc mm (key x) (fun o => o.getD [] ++ [val x]))
      (fun x => [ProjEvent.keyEval x, ProjEvent.valEval x, ProjEvent.combineEv x]) l mg []]
    rw [group_by_into]
    simp
  have ht : transform_reduce_by_impl_logged l key val traits
      = (transform_reduce_by_impl l key val traits,
         l.flatMap (fun x =>
           [ProjEvent.keyEval x, ProjEvent.valEval x, ProjEvent.combineEv x])) := by
    rw [transform_reduce_by_impl_logged, foldl_with_log
      (fun mm x => updateAssoc mm (key x)
        (fun o => traits.combine (o.getD traits.identity) (val x)))
      (fun x => [ProjEvent.keyEval x, ProjEvent.valEval x, ProjEvent.combineEv x]) l [] []]
    rw [transform_reduce_by_impl]
    simp
  have he : extrema_by_logged l key val order comp
      = (extrema_by l key val order comp,
         l.flatMap (fun x => [ProjEvent.keyEval x, ProjEvent.ordEval x,
           ProjEvent.valEval x, ProjEvent.combineEv x])) := by
    simp only [extrema_by_logged]
    rw [foldl_with_log
      (fun mm x => updateAssoc mm (key x) (extUpdate comp (val x) (order x)))
      (fun x => [ProjEvent.keyEval x, ProjEvent.ordEval x, ProjEvent.valEval x,
        ProjEvent.combineEv x]) l [] []]
    rw [extrema_by]
    simp
  have hp : partition_by_logged l pred val
      = (partition_by l pred val,
         l.flatMap (fun x =>
           [ProjEvent.predEval x, ProjEvent.valEval x, ProjEvent.combineEv x])) := by
    rw [partition_by_logged, foldl_with_log
      (fun (out : partition_result V) x =>
        if pred x then { out with trues := out.trues ++ [val x] }
        else { out with falses := out.falses ++ [val x] })
      (fun x => [ProjEvent.predEval x, ProjEvent.valEval x, ProjEvent.combineEv x])
      l { falses := [], trues := [] } []]
    rw [partition_by]
    simp
  exact ⟨⟨by rw [hc], by rw [hc]⟩, ⟨by rw [hi], by rw [hi]⟩,
    ⟨by rw [hg], by rw [hg]⟩, ⟨by rw [hgi], by rw [hgi]⟩,
    ⟨by rw [ht], by rw [ht]⟩, ⟨by rw [he], by rw [he]⟩,
    ⟨by rw [hp], by rw [hp]⟩⟩

theorem foldE_fail {ε S : Type} (f : S → E → Except ε S) (l1 l2 : List E)
    (x : E) (e : ε)
    (hok : ∀ y ∈ l1, ∀ s : S, ∃ s2, f s y = Except.ok s2)
    (hfail : ∀ s : S, f s x = Except.error e) :
    ∀ s0 : S, foldE f s0 (l1 ++ x :: l2) = Except.error e := by
  induction l1 with
  | nil =>
    intro s0
    rw [List.nil_append]
    simp only [foldE]
    rw [hfail s0]
  | cons y l1 ih =>
    intro s0
    obtain ⟨s2, hs2⟩ := hok y (List.mem_cons_self y l1) s0
    rw [List.cons_append]
    simp only [foldE]
    rw [hs2]
    exact ih (fun z hz s => hok z (List.mem_cons_of_mem y hz) s) s2

/-- C8: for every accumulation operation of the library — `count_by`,
`index_by_into`, `group_reduce_by`, `group_by_into`,
`transform_reduce_by_impl` (the engine of `transform_reduce_by` and
`accumulate_by`), `extrema_by` and `partition_by` — if the key or the value
projection (`extrema_by`'s order and `partition_by`'s predicate playing the
key role where applicable) signals an error for some element, every earlier
element having projected cleanly, then the operation returns exactly that
error: the caller observes `Except.error e` and no map, partial or
otherwise, and no element is retried. -/
theorem accumulation_error_fail_fast {ε : Type} [DecidableEq K] :
    (∀ (l1 l2 : List E) (x : E) (keyf : E → Except ε K) (e : ε),
      (∀ y ∈ l1, ∃ k, keyf y = Except.ok k) →
      keyf x = Except.error e →
      count_by_exc (l1 ++ x :: l2) keyf = Except.error e)
    ∧ (∀ (l1 l2 : List E) (x : E) (keyf : E → Except ε K)
        (valf : E → Except ε V) (m0 : List (K × V)) (overwrite : Bool) (e : ε),
      (∀ y ∈ l1, (∃ k, keyf y = Except.ok k) ∧ (∃ v, valf y = Except.ok v)) →
      (keyf x = Except.error e
        ∨ ∃ k, keyf x = Except.ok k ∧ valf x = Except.error e) →
      index_by_into_exc (l1 ++ x :: l2) keyf valf m0 overwrite = Except.error e)
    ∧ (∀ (l1 l2 : List E) (x : E) (keyf : E → Except ε K)
        (valf : E → Except ε V) (init : A) (op : A → V → A) (e : ε),
      (∀ y ∈ l1, (∃ k, keyf y = Except.ok k) ∧ (∃ v, valf y = Except.ok v)) →
      (keyf x = Except.error e
        ∨ ∃ k, keyf x = Except.ok k ∧ valf x = Except.error e) →
      group_reduce_by_exc (l1 ++ x :: l2) keyf valf init op = Except.error e)
    ∧ (∀ (l1 l2 : List E) (x : E) (keyf : E → Except ε K)
        (valf : E → Except ε V) (m0 : List (K × List V)) (e : ε),
      (∀ y ∈ l1, (∃ k, keyf y = Except.ok k) ∧ (∃ v, valf y = Except.ok v)) →
      (keyf x = Except.error e
        ∨ ∃ k, keyf x = Except.ok k ∧ valf x = Except.error e) →
      group_by_into_exc (l1 ++ x :: l2) keyf valf m0 = Except.error e)
    ∧ (∀ (l1 l2 : List E) (x : E) (keyf : E → Except ε K)
        (valf : E → Except ε V) (traits : Traits V A) (e : ε),
      (∀ y ∈ l1, (∃ k, keyf y = Except.ok k) ∧ (∃ v, valf y = Except.ok v)) →
      (keyf x = Except.error e
        ∨ ∃ k, keyf x = Except.ok k ∧ valf x = Except.error e) →
      transform_reduce_by_impl_exc (l1 ++ x :: l2) keyf valf traits
        = Except.error e)
    ∧ (∀ (l1 l2 : List E) (x : E) (keyf : E → Except ε K)
        (valf : E → Except ε V) (ordf : E → Except ε O) (comp : O → O → Bool)
        (e : ε),
      (∀ y ∈ l1, (∃ k, keyf y = Except.ok k) ∧ (∃ o, ordf y = Except.ok o)
        ∧ (∃ v, valf y = Except.ok v)) →
      (keyf x = Except.error e
        ∨ ∃ k o, keyf x = Except.ok k ∧ ordf x = Except.ok o
            ∧ valf x = Except.error e) →
      extrema_by_exc (l1 ++ x :: l2) keyf valf ordf comp = Except.error e)
    ∧ (∀ (l1 l2 : List E) (x : E) (predf : E → Except ε Bool)
        (valf : E → Except ε V) (e : ε),
      (∀ y ∈ l1, (∃ b, predf y = Except.ok b) ∧ (∃ v, valf y = Except.ok v)) →
      (predf x = Except.error e
        ∨ ∃ b, predf x = Except.ok b ∧ valf x = Except.error e) →
      partition_by_exc (l1 ++ x :: l2) predf valf = Except.error e) := by
  refine ⟨?_, ?_, ?_, ?_, ?_, ?_, ?_⟩
  · intro l1 l2 x keyf e hok hfail
    rw [count_by_exc]
    refine foldE_fail (count_step_exc keyf) l1 l2 x e ?_ ?_ []
    · intro y hy s
      obtain ⟨k, hk⟩ := hok y hy
      exact ⟨updateAssoc s k (fun o => o.getD 0 + 1),
        by simp only [count_step_exc, hk]⟩
    · intro s
      simp only [count_step_exc, hfail]
  · intro l1 l2 x keyf valf m0 overwrite e hok hfail
    rw [index_by_into_exc]
    refine foldE_fail (index_step_exc keyf valf overwrite) l1 l2 x e ?_ ?_ m0
    · intro y hy s
      obtain ⟨⟨k, hk⟩, ⟨v, hv⟩⟩ := hok y hy
      exact ⟨(if overwrite then setAssoc s k v else emplaceAssoc s k v),
        by simp only [index_step_exc, hk, hv]⟩
    · intro s
      rcases hfail with hk | ⟨k, hk, hv⟩
      · simp only [index_step_exc, hk]
      · simp only [index_step_exc, hk, hv]
  · intro l1 l2 x keyf valf init op e hok hfail
    rw [group_reduce_by_exc]
    refine foldE_fail (group_reduce_step_exc keyf valf init op) l1 l2 x e ?_ ?_ []
    · intro y hy s
      obtain ⟨⟨k, hk⟩, ⟨v, hv⟩⟩ := hok y hy
      exact ⟨updateAssoc s k (fun o => op (o.getD init) v),
        by simp only [group_reduce_step_exc, hk, hv]⟩
    · intro s
      rcases hfail with hk | ⟨k, hk, hv⟩
      · simp only [group_reduce_step_exc, hk]
      · simp only [group_reduce_step_exc, hk, hv]
  · intro l1 l2 x keyf valf m0 e hok hfail
    rw [group_by_into_exc]
    refine foldE_fail (group_step_exc keyf valf) l1 l2 x e ?_ ?_ m0
    · intro y hy s
      obtain ⟨⟨k, hk⟩, ⟨v, hv⟩⟩ := hok y hy
      exact ⟨updateAssoc s k (fun o => o.getD [] ++ [v]),
        by simp only [group_step_exc, hk, hv]⟩
    · intro s
      rcases hfail with hk | ⟨k, hk, hv⟩
      · simp only [group_step_exc, hk]
      · simp only [group_step_exc, hk, hv]
  · intro l1 l2 x keyf valf traits e hok hfail
    rw [transform_reduce_by_impl_exc]
    refine foldE_fail (transform_reduce_step_exc keyf valf traits) l1 l2 x e ?_ ?_ []
    · intro y hy s
      obtain ⟨⟨k, hk⟩, ⟨v, hv⟩⟩ := hok y hy
      exact ⟨updateAssoc s k (fun o => traits.combine (o.getD traits.identity) v),
        by simp only [transform_reduce_step_exc, hk, hv]⟩
    · intro s
      rcases hfail with hk | ⟨k, hk, hv⟩
      · simp only [transform_reduce_step_exc, hk]
      · simp only [transform_reduce_step_exc, hk, hv]
  · intro l1 l2 x keyf valf ordf comp e hok hfail
    rw [extrema_by_exc, foldE_fail (extrema_step_exc keyf valf ordf comp) l1 l2 x e
      (by intro y hy s
          obtain ⟨⟨k, hk⟩, ⟨o, ho⟩, ⟨v, hv⟩⟩ := hok y hy
          exact ⟨updateAssoc s k (extUpdate comp v o),
            by simp only [extrema_step_exc, hk, ho, hv]⟩)
      (by intro s
          rcases hfail with hk | ⟨k, o, hk, ho, hv⟩
          · simp only [extrema_step_exc, hk]
          · simp only [extrema_step_exc, hk, ho, hv]) []]
    rfl
  · intro l1 l2 x predf valf e hok hfail
    rw [partition_by_exc]
    refine foldE_fail (partition_step_exc predf valf) l1 l2 x e ?_ ?_
      { falses := [], trues := [] }
    · intro y hy s
      obtain ⟨⟨b, hb⟩, ⟨v, hv⟩⟩ := hok y hy
      exact ⟨(if b then { s with trues := s.trues ++ [v] }
          else { s with falses := s.falses ++ [v] }),
        by simp only [partition_step_exc, hb, hv]⟩
    · intro s
      rcases hfail with hb | ⟨b, hb, hv⟩
      · simp only [partition_step_exc, hb]
      · simp only [partition_step_exc, hb, hv]

/-- Witness for C8 at a concrete input: on `[1, 2, 3]` with the routing
projection (key or predicate) signalling error `7` at element `2` and every
other projection succeeding, each of the seven operations returns exactly
`Except.error 7`. -/
theorem accumulation_error_fail_fast_witness :
    count_by_exc [1, 2, 3]
        (fun y : Nat => if y = 2 then Except.error 7 else Except.ok y)
      = Except.error 7
    ∧ index_by_into_exc [1, 2, 3]
        (fun y : Nat => if y = 2 then Except.error 7 else Except.ok y)
        (fun y : Nat => Except.ok y) [] true = Except.error 7
    ∧ group_reduce_by_exc [1, 2, 3]
        (fun y : Nat => if y = 2 then Except.error 7 else Except.ok y)
        (fun y : Nat => Except.ok y) 0 (fun a v => a + v) = Except.error 7
    ∧ group_by_into_exc [1, 2, 3]
        (fun y : Nat => if y = 2 then Except.error 7 else Except.ok y)
        (fun y : Nat => Except.ok y) [] = Except.error 7
    ∧ transform_reduce_by_impl_exc [1, 2, 3]
        (fun y : Nat => if y = 2 then Except.error 7 else Except.ok y)
        (fun y : Nat => Except.ok y)
        ({ identity := 0, combine := fun a v => a + v } : Traits Nat Nat)
      = Except.error 7
    ∧ extrema_by_exc [1, 2, 3]
        (fun y : Nat => if y = 2 then Except.error 7 else Except.ok y)
        (fun y : Nat => Except.ok y) (fun y : Nat => Except.ok y)
        (fun a b : Nat => decide (a < b)) = Except.error 7
    ∧ partition_by_exc [1, 2, 3]
        (fun y : Nat => if y = 2 then Except.error 7 else Except.ok (decide (y < 2)))
        (fun y : Nat => Except.ok y) = Except.error 7 := by
  have hok1 : ∀ y ∈ [(1 : Nat)],
      ∃ k, (if y = 2 then Except.error 7 else Except.ok y) = Except.ok k := by
    intro y hy
    rw [List.mem_singleton] at hy
    subst hy
    exact ⟨1, rfl⟩
  have hok2 : ∀ y ∈ [(1 : Nat)],
      (∃ k, (if y = 2 then Except.error 7 else Except.ok y) = Except.ok k)
      ∧ (∃ v, (Except.ok y : Except Nat Nat) = Except.ok v) := by
    intro y hy
    rw [List.mem_singleton] at hy
    subst hy
    exact ⟨⟨1, rfl⟩, ⟨1, rfl⟩⟩
  have hok3 : ∀ y ∈ [(1 : Nat)],
      (∃ k, (if y = 2 then Except.error 7 else Except.ok y) = Except.ok k)
      ∧ (∃ o, (Except.ok y : Except Nat Nat) = Except.ok o)
      ∧ (∃ v, (Except.ok y : Except Nat Nat) = Except.ok v) := by
    intro y hy
    rw [List.mem_singleton] at hy
    subst hy
    exact ⟨⟨1, rfl⟩, ⟨1, rfl⟩, ⟨1, rfl⟩⟩
  have hokp : ∀ y ∈ [(1 : Nat)],
      (∃ b, (if y = 2 then Except.error 7 else Except.ok (decide (y < 2)))
        = Except.ok b)
      ∧ (∃ v, (Except.ok y : Except Nat Nat) = Except.ok v) := by
    intro y hy
    rw [List.mem_singleton] at hy
    subst hy
    exact ⟨⟨decide (1 < 2), rfl⟩, ⟨1, rfl⟩⟩
  have H := @accumulation_error_fail_fast Nat Nat Nat Nat Nat Nat _
  exact ⟨H.1 [1] [3] 2 _ 7 hok1 rfl,
    H.2.1 [1] [3] 2 _ _ [] true 7 hok2 (Or.inl rfl),
    H.2.2.1 [1] [3] 2 _ _ 0 (fun a v => a + v) 7 hok2 (Or.inl rfl),
    H.2.2.2.1 [1] [3] 2 _ _ [] 7 hok2 (Or.inl rfl),
    H.2.2.2.2.1 [1] [3] 2 _ _
      ({ identity := 0, combine := fun a v => a + v } : Traits Nat Nat) 7
      hok2 (Or.inl rfl),
    H.2.2.2.2.2.1 [1] [3] 2 _ _ _
      (fun a b : Nat => decide (a < b)) 7 hok3 (Or.inl rfl),
    H.2.2.2.2.2.2 [1] [3] 2 _ _ 7 hokp (Or.inl rfl)⟩

/-- C10: `partition_by` decides the branch of every element from the
element's pre-projection state: with a value projection that consumes or
mutates the element, the result coincides with plain `partition_by` on the
projected first components, so each branch is selected by the predicate on
the untouched element and the residual state left by the projection can
never affect the routing. -/
theorem partition_by_mut_pred_first (l : List E) (pred : E → Bool)
    (value : E → V × E) :
    partition_by_mut l pred value = partition_by l pred (fun x => (value x).1)
    ∧ (partition_by_mut l pred value).trues
        = (l.filter pred).map (fun x => (value x).1)
    ∧ (partition_by_mut l pred value).falses
        = (l.filter (fun x => !pred x)).map (fun x => (value x).1) := by
  have heq : partition_by_mut l pred value
      = partition_by l pred (fun x => (value x).1) := rfl
  exact ⟨heq, by rw [heq, partition_by_trues], by rw [heq, partition_by_falses]⟩

theorem leByValue_iff [LinearOrder K] [LinearOrder V] (a b : K × V) :
    (!cmpByValue b a) = true ↔ b.2 < a.2 ∨ (b.2 = a.2 ∧ a.1 ≤ b.1) := by
  by_cases h : b.2 = a.2
  · rw [cmpByValue, if_neg (by simpa using h)]
    simp only [Bool.not_eq_true', decide_eq_false_iff_not, not_lt]
    constructor
    · intro hle
      exact Or.inr ⟨h, hle⟩
    · rintro (hlt | ⟨_, hle⟩)
      · exact absurd hlt (by rw [h]; exact lt_irrefl a.2)
      · exact hle
  · rw [cmpByValue, if_pos (by simpa using h)]
    simp only [Bool.not_eq_true', decide_eq_false_iff_not, not_lt]
    constructor
    · intro hle
      exact Or.inl (lt_of_le_of_ne hle h)
    · rintro (hlt | ⟨heq, _⟩)
      · exact le_of_lt hlt
      · exact absurd heq h

theorem leByValue_trans [LinearOrder K] [LinearOrder V] (a b c : K × V)
    (hab : (!cmpByValue b a) = true) (hbc : (!cmpByValue c b) = true) :
    (!cmpByValue c a) = true := by
  rw [leByValue_iff] at hab hbc ⊢
  rcases hab with h1 | ⟨h1, h1'⟩ <;> rcases hbc with h2 | ⟨h2, h2'⟩
  · exact Or.inl (lt_trans h2 h1)
  · exact Or.inl (lt_of_eq_of_lt h2 h1)
  · exact Or.inl (lt_of_lt_of_eq h2 h1)
  · exact Or.inr ⟨h2.trans h1, h1'.trans h2'⟩

theorem leByValue_total [LinearOrder K] [LinearOrder V] (a b : K × V) :
    ((!cmpByValue b a) || (!cmpByValue a b)) = true := by
  rw [Bool.or_eq_true, leByValue_iff, leByValue_iff]
  rcases lt_trichotomy a.2 b.2 with h | h | h
  · exact Or.inr (Or.inl h)
  · rcases le_total a.1 b.1 with h1 | h1
    · exact Or.inl (Or.inr ⟨h.symm, h1⟩)
    · exact Or.inr (Or.inr ⟨h, h1⟩)
  · exact Or.inl (Or.inl h)

theorem top_k_eq_take (m : List (K × V)) (k : Nat) (cmp : K × V → K × V → Bool) :
    top_k m k cmp = (to_sorted_pairs m cmp).take k := by
  rw [top_k]
  by_cases h : (to_sorted_pairs m cmp).length > k
  · simp [h]
  · simp only [h, if_false]
    exact (List.take_of_length_le (le_of_not_lt h)).symm

/-- C9: `top_k_by_value` is idempotent under re-sorting: applied with the
same `k` to its own output it returns the same sequence; moreover its
comparator (value descending, ascending-key tie-break) totally orders pairs
with distinct keys, so the output of a map is uniquely determined. -/
theorem top_k_by_value_idempotent [LinearOrder K] [LinearOrder V]
    (m : List (K × V)) (k : Nat) :
    top_k_by_value (top_k_by_value m k) k = top_k_by_value m k
    ∧ ∀ a b : K × V, a.1 ≠ b.1 → (cmpByValue a b = true ∨ cmpByValue b a = true) := by
  constructor
  · have hsorted : (to_sorted_pairs m cmpByValue).Pairwise
        (fun a b => (!cmpByValue b a) = true) := by
      rw [to_sorted_pairs]
      exact List.sorted_mergeSort
        (fun a b c hab hbc => leByValue_trans a b c hab hbc)
        (fun a b => leByValue_total a b) m
    have hout : (top_k_by_value m k).Pairwise (fun a b => (!cmpByValue b a) = true) := by
      rw [top_k_by_value, top_k_eq_take]
      exact List.Pairwise.sublist (List.take_sublist k _) hsorted
    have hresort : to_sorted_pairs (top_k_by_value m k) cmpByValue
        = top_k_by_value m k := by
      rw [to_sorted_pairs]
      exact List.mergeSort_of_sorted hout
    rw [show top_k_by_value (top_k_by_value m k) k
        = top_k (top_k_by_value m k) k cmpByValue from rfl]
    rw [top_k_eq_take, hresort]
    rw [show top_k_by_value m k = top_k m k cmpByValue from rfl, top_k_eq_take]
    rw [List.take_take]
    simp
  · intro a b hne
    by_cases h2 : a.2 = b.2
    · rcases lt_or_gt_of_ne hne with h1 | h1
      · exact Or.inl (by rw [cmpByValue, if_neg (by simpa using h2)]; simpa using h1)
      · exact Or.inr (by rw [cmpByValue, if_neg (by simpa using h2.symm)]; simpa using h1)
    · rcases lt_or_gt_of_ne h2 with h1 | h1
      · exact Or.inr (by
          rw [cmpByValue, if_pos (fun hc : b.2 = a.2 => h2 hc.symm)]
          simpa using h1)
      · exact Or.inl (by rw [cmpByValue, if_pos h2]; simpa using h1)

theorem lookupKey_map_value [DecidableEq K] (m : List (K × A)) (g : A → V) (k : K) :
    lookupKey (m.map (fun kv => (kv.1, g kv.2))) k = (lookupKey m k).map g := by
  induction m with
  | nil => rfl
  | cons p rest ih =>
    obtain ⟨k0, a⟩ := p
    by_cases h : k0 = k <;> simp [lookupKey, h, ih]

theorem minMaxInv_init [LinearOrder O] (p : V × O) : MinMaxInv [p] (extInit p) := by
  refine ⟨?_, ?_, ?_, ?_⟩
  · intro q hq
    rw [List.mem_singleton] at hq
    subst hq
    exact le_refl _
  · simp [extInit, List.find?_cons]
  · intro q hq
    rw [List.mem_singleton] at hq
    subst hq
    exact le_refl _
  · simp [extInit, List.find?_cons]

theorem minMaxInv_step [LinearOrder O] (seen : List (V × O))
    (st : extrema_state V O) (p : V × O) (h : MinMaxInv seen st) :
    MinMaxInv (seen ++ [p]) (extStep (fun a b => decide (a < b)) st p) := by
  obtain ⟨hminAll, hminFind, hmaxAll, hmaxFind⟩ := h
  refine ⟨?_, ?_, ?_, ?_⟩
  · by_cases hlt : p.2 < st.min_order
    · have e2 : (extStep (fun a b => decide (a < b)) st p).min_order = p.2 := by
        simp [extStep, hlt]
      rw [e2]
      intro q hq
      rcases List.mem_append.mp hq with hq | hq
      · exact le_of_lt (lt_of_lt_of_le hlt (hminAll q hq))
      · rw [List.mem_singleton] at hq
        subst hq
        exact le_refl _
    · have e2 : (extStep (fun a b => decide (a < b)) st p).min_order = st.min_order := by
        simp [extStep, hlt]
      rw [e2]
      intro q hq
      rcases List.mem_append.mp hq with hq | hq
      · exact hminAll q hq
      · rw [List.mem_singleton] at hq
        subst hq
        exact le_of_not_lt hlt
  · by_cases hlt : p.2 < st.min_order
    · have e1 : (extStep (fun a b => decide (a < b)) st p).min_value = p.1 := by
        simp [extStep, hlt]
      have e2 : (extStep (fun a b => decide (a < b)) st p).min_order = p.2 := by
        simp [extStep, hlt]
      rw [e1, e2]
      have hnone : seen.find? (fun q => decide (q.2 ≤ p.2)) = none := by
        rw [List.find?_eq_none]
        intro q hq
        simp only [decide_eq_true_eq, not_le]
        exact lt_of_lt_of_le hlt (hminAll q hq)
      rw [List.find?_append, hnone, Option.none_or]
      simp [List.find?_cons]
    · have e1 : (extStep (fun a b => decide (a < b)) st p).min_value = st.min_value := by
        simp [extStep, hlt]
      have e2 : (extStep (fun a b => decide (a < b)) st p).min_order = st.min_order := by
        simp [extStep, hlt]
      rw [e1, e2, List.find?_append, hminFind]
      rfl
  · by_cases hlt : st.max_order < p.2
    · have e2 : (extStep (fun a b => decide (a < b)) st p).max_order = p.2 := by
        simp [extStep, hlt]
      rw [e2]
      intro q hq
      rcases List.mem_append.mp hq with hq | hq
      · exact le_of_lt (lt_of_le_of_lt (hmaxAll q hq) hlt)
      · rw [List.mem_singleton] at hq
        subst hq
        exact le_refl _
    · have e2 : (extStep (fun a b => decide (a < b)) st p).max_order = st.max_order := by
        simp [extStep, hlt]
      rw [e2]
      intro q hq
      rcases List.mem_append.mp hq with hq | hq
      · exact hmaxAll q hq
      · rw [List.mem_singleton] at hq
        subst hq
        exact le_of_not_lt hlt
  · by_cases hlt : st.max_order < p.2
    · have e1 : (extStep (fun a b => decide (a < b)) st p).max_value = p.1 := by
        simp [extStep, hlt]
      have e2 : (extStep (fun a b => decide (a < b)) st p).max_order = p.2 := by
        simp [extStep, hlt]
      rw [e1, e2]
      have hnone : seen.find? (fun q => decide (p.2 ≤ q.2)) = none := by
        rw [List.find?_eq_none]
        intro q hq
        simp only [decide_eq_true_eq, not_le]
        exact lt_of_le_of_lt (hmaxAll q hq) hlt
      rw [List.find?_append, hnone, Option.none_or]
      simp [List.find?_cons]
    · have e1 : (extStep (fun a b => decide (a < b)) st p).max_value = st.max_value := by
        simp [extStep, hlt]
      have e2 : (extStep (fun a b => decide (a < b)) st p).max_order = st.max_order := by
        simp [extStep, hlt]
      rw [e1, e2, List.find?_append, hmaxFind]
      rfl

theorem minMaxInv_extRun [LinearOrder O] (l : List (V × O)) :
    ∀ (seen : List (V × O)) (st : extrema_state V O), MinMaxInv seen st →
      MinMaxInv (seen ++ l) (extRun (fun a b => decide (a < b)) st l) := by
  induction l with
  | nil =>
    intro seen st h
    simpa [extRun] using h
  | cons p l ih =>
    intro seen st h
    have hstep := minMaxInv_step seen st p h
    have := ih (seen ++ [p]) (extStep (fun a b => decide (a < b)) st p) hstep
    simpa [extRun, List.foldl_cons, List.append_assoc] using this

theorem extFold_some (value : E → V) (order : E → O)
    (comp : O → O → Bool) (l : List E) :
    ∀ st : extrema_state V O,
      l.foldl (fun acc x => some (extUpdate comp (value x) (order x) acc)) (some st)
      = some (extRun comp st (l.map (fun x => (value x, order x)))) := by
  induction l with
  | nil => intro st; rfl
  | cons x l ih =>
    intro st
    rw [List.foldl_cons]
    exact ih (extStep comp st (value x, order x))

/-- C3: if `extrema_by` (under the default strict-less comparator) stores
`res` at key `k`, then over the per-key projected (value, order) pairs —
the elements whose key is `k`, in input order — `res.min` is the value of
the first pair attaining the least order and `res.max` the value of the
first pair attaining the greatest order: on an exact order tie the
earliest-seen element's value is kept, updates happening only on strict
improvement. -/
theorem extrema_by_correct [DecidableEq K] [LinearOrder O] (l : List E)
    (key : E → K) (value : E → V) (order : E → O) (k : K)
    (res : extrema_result V)
    (h : lookupKey (extrema_by l key value order (fun a b => decide (a < b))) k
      = some res) :
    ∃ omin omax,
      (∀ p ∈ (l.filter (fun x => decide (key x = k))).map
          (fun x => (value x, order x)), omin ≤ p.2)
      ∧ ((l.filter (fun x => decide (key x = k))).map
          (fun x => (value x, order x))).find? (fun q => decide (q.2 ≤ omin))
        = some (res.min, omin)
      ∧ (∀ p ∈ (l.filter (fun x => decide (key x = k))).map
          (fun x => (value x, order x)), p.2 ≤ omax)
      ∧ ((l.filter (fun x => decide (key x = k))).map
          (fun x => (value x, order x))).find? (fun q => decide (omax ≤ q.2))
        = some (res.max, omax) := by
  rw [extrema_by, lookupKey_map_value _ extResultOf k] at h
  rw [lookupKey_foldl_updateAssoc l key
    (fun x => extUpdate (fun a b => decide (a < b)) (value x) (order x)) [] k] at h
  rw [show lookupKey ([] : List (K × extrema_state V O)) k = none from rfl] at h
  rcases hfilt : l.filter (fun x => decide (key x = k)) with _ | ⟨x, rest⟩
  · rw [hfilt] at h
    exact absurd h (by simp)
  · rw [hfilt, List.foldl_cons] at h
    rw [show extUpdate (fun a b : O => decide (a < b)) (value x) (order x) none
        = extInit (value x, order x) from rfl] at h
    rw [extFold_some value order (fun a b => decide (a < b)) rest
      (extInit (value x, order x))] at h
    set st := extRun (fun a b => decide (a < b)) (extInit (value x, order x))
      (rest.map (fun x => (value x, order x))) with hst
    have hres : res = { min := st.min_value, max := st.max_value } := by
      have h2 : extResultOf st = res := by simpa using h
      exact h2.symm.trans rfl
    have hinv : MinMaxInv ([(value x, order x)] ++ rest.map (fun x => (value x, order x))) st :=
      minMaxInv_extRun (rest.map (fun x => (value x, order x)))
        [(value x, order x)] (extInit (value x, order x))
        (minMaxInv_init (value x, order x))
    rw [show [(value x, order x)] ++ rest.map (fun x => (value x, order x))
        = ((x :: rest).map (fun x => (value x, order x))) from rfl] at hinv
    obtain ⟨hminAll, hminFind, hmaxAll, hmaxFind⟩ := hinv
    refine ⟨st.min_order, st.max_order, ?_, ?_, ?_, ?_⟩
    · exact hminAll
    · rw [hres]; exact hminFind
    · exact hmaxAll
    · rw [hres]; exact hmaxFind

/-- Witness for C3 at the spec's sensor example: readings for sensor `0` at
timestamps `100, 90, 300` (value = order = timestamp) store `min = 90` and
`max = 300`, and that pair satisfies the earliest-least / earliest-greatest
characterization. -/
theorem extrema_by_correct_witness :
    ∃ omin omax,
      (∀ p ∈ (([((0 : Nat), (100 : Int)), (0, 90), (0, 300)]).filter
          (fun x => decide (x.1 = 0))).map (fun x => (x.2, x.2)), omin ≤ p.2)
      ∧ ((([((0 : Nat), (100 : Int)), (0, 90), (0, 300)]).filter
          (fun x => decide (x.1 = 0))).map (fun x => (x.2, x.2))).find?
          (fun q => decide (q.2 ≤ omin))
        = some (({ min := 90, max := 300 } : extrema_result Int).min, omin)
      ∧ (∀ p ∈ (([((0 : Nat), (100 : Int)), (0, 90), (0, 300)]).filter
          (fun x => decide (x.1 = 0))).map (fun x => (x.2, x.2)), p.2 ≤ omax)
      ∧ ((([((0 : Nat), (100 : Int)), (0, 90), (0, 300)]).filter
          (fun x => decide (x.1 = 0))).map (fun x => (x.2, x.2))).find?
          (fun q => decide (omax ≤ q.2))
        = some (({ min := 90, max := 300 } : extrema_result Int).max, omax) :=
  extrema_by_correct [((0 : Nat), (100 : Int)), (0, 90), (0, 300)]
    Prod.fst Prod.snd Prod.snd 0 { min := 90, max := 300 } (by decide)

/-- Witness for C9 at the spec's frequency-map example
`{6 ↦ 3, 1 ↦ 2, 2 ↦ 2, 3 ↦ 1, 4 ↦ 1}` with `k = 2`, together with comparator
totality at the distinct-key equal-value pairs `(1, 2)` and `(2, 2)`. -/
theorem top_k_by_value_idempotent_witness :
    top_k_by_value
        (top_k_by_value [((6 : Nat), (3 : Nat)), (1, 2), (2, 2), (3, 1), (4, 1)] 2) 2
      = top_k_by_value [((6 : Nat), (3 : Nat)), (1, 2), (2, 2), (3, 1), (4, 1)] 2
    ∧ (cmpByValue ((1 : Nat), (2 : Nat)) (2, 2) = true
        ∨ cmpByValue ((2 : Nat), (2 : Nat)) (1, 2) = true) :=
  ⟨(top_k_by_value_idempotent
      [((6 : Nat), (3 : Nat)), (1, 2), (2, 2), (3, 1), (4, 1)] 2).1,
   (top_k_by_value_idempotent
      [((6 : Nat), (3 : Nat)), (1, 2), (2, 2), (3, 1), (4, 1)] 2).2
     (1, 2) (2, 2) (by decide)⟩

end ByKey
